import Mathlib

/-!
Shallow embedding of `dense_strings` (`src/lib.rs`).

A Rust `str` is modelled as its UTF-8 byte sequence, `List Nat` (each byte
`< 256`; the byte values are opaque to every operation of the library, so no
bound is imposed by the model).  `DenseStrings` mirrors the Rust struct: a
flat `data` buffer and the `indices` boundary array.  `usize` arithmetic in
the source is only ever addition of buffer lengths and never overflows in any
execution that fits in memory, so offsets are plain `Nat`.

Rust's slice expression `&self.data[range]` panics when the range is out of
bounds; the model totalizes it with `drop`/`take` and the in-bounds
precondition is stated separately (`sliceInBounds`) and proved for every
array the public API can build.  `Option.none` models both Rust's `None` and
(for `index`) a panic, as noted at each definition.
-/

/-- The UTF-8 bytes of one Rust string. -/
abbrev ByteStr := List Nat

/-- The struct `DenseStrings { data: Box<[u8]>, indices: Box<[usize]> }`. -/
structure DenseStrings where
  data : ByteStr
  indices : List Nat
deriving DecidableEq, Repr

/-- The construction loop of `DenseStrings::new`: for each string, if its
position `i` is not 0 push the current buffer length onto `indices`, then
append the string's bytes to `data`. -/
def DenseStrings.newLoop : List ByteStr → Nat → ByteStr → List Nat → DenseStrings
  | [], _, data, indices => ⟨data, indices⟩
  | s :: rest, i, data, indices =>
      DenseStrings.newLoop rest (i + 1) (data ++ s)
        (if i ≠ 0 then indices ++ [data.length] else indices)

/-- `DenseStrings::new(strings)`. -/
def DenseStrings.new (strings : List ByteStr) : DenseStrings :=
  DenseStrings.newLoop strings 0 [] []

/-- The `start` line of `get_byte_range`:
`i.checked_sub(1).map(|i| self.indices.get(i).copied()).unwrap_or(Some(0))`.
For `i = 0` the `checked_sub` fails and the default `Some(0)` is used;
otherwise the result is `indices.get(i - 1)`. -/
def DenseStrings.startOf (v : DenseStrings) (i : Nat) : Option Nat :=
  if i = 0 then some 0 else v.indices.get? (i - 1)

/-- The `end` line of `get_byte_range`:
`(i <= self.indices.len()).then_some(self.indices.get(i).copied().unwrap_or(self.data.len()))`. -/
def DenseStrings.endOf (v : DenseStrings) (i : Nat) : Option Nat :=
  if i ≤ v.indices.length then some ((v.indices.get? i).getD v.data.length) else none

/-- `DenseStrings::get_byte_range`, sequencing the two fallible computations
with `?` exactly as the source does. -/
def DenseStrings.get_byte_range (v : DenseStrings) (i : Nat) : Option (Nat × Nat) :=
  match v.startOf i with
  | none => none
  | some s =>
    match v.endOf i with
    | none => none
    | some e => some (s, e)

/-- The bytes of `&data[s..e]`, totalized; `sliceInBounds` is Rust's panic
precondition for this expression. -/
def listSlice (data : ByteStr) (s e : Nat) : ByteStr :=
  (data.drop s).take (e - s)

/-- Precondition under which `&data[s..e]` does not panic in Rust. -/
def sliceInBounds (data : ByteStr) (s e : Nat) : Prop :=
  s ≤ e ∧ e ≤ data.length

/-- `DenseStrings::get`: take the byte range, slice the buffer, reinterpret
as `str` (the reinterpretation is byte-identity in this model; its validity
precondition is a separate theorem). -/
def DenseStrings.get (v : DenseStrings) (i : Nat) : Option ByteStr :=
  match v.get_byte_range i with
  | none => none
  | some (s, e) => some (listSlice v.data s e)

/-- `DenseStrings::len`. -/
def DenseStrings.len (v : DenseStrings) : Nat :=
  v.indices.length + 1

/-- `DenseStrings::full_str`: the whole buffer reinterpreted as `str`. -/
def DenseStrings.full_str (v : DenseStrings) : ByteStr :=
  v.data

/-- `impl Index<usize>`: `self.get(index).unwrap()`.  `none` models the
panic of `unwrap`. -/
def DenseStrings.index (v : DenseStrings) (i : Nat) : Option ByteStr :=
  v.get i

/-- The data fed to the `Hasher` by `impl Hash`: the `full_str` bytes
followed by `len`.  Two values fed identical data hash identically. -/
def DenseStrings.hashFeed (v : DenseStrings) : ByteStr × Nat :=
  (v.full_str, v.len)

/-- `impl PartialEq`: `self.full_str() == other.full_str() && self.len() == other.len()`. -/
def DenseStrings.beq (a b : DenseStrings) : Bool :=
  a.full_str == b.full_str && a.len == b.len

/-- The struct `DenseStringVecIter { vec, i }` (the borrow is ownership
bookkeeping only, so the iterator state carries the array by value). -/
structure DenseStringVecIter where
  vec : DenseStrings
  i : Nat

/-- `DenseStrings::iter`. -/
def DenseStrings.iter (v : DenseStrings) : DenseStringVecIter :=
  ⟨v, 0⟩

/-- `Iterator::next` for `DenseStringVecIter`: look up position `i`, then
increment `i`; returns the item together with the successor state. -/
def DenseStringVecIter.next (it : DenseStringVecIter) : Option ByteStr × DenseStringVecIter :=
  (it.vec.get it.i, ⟨it.vec, it.i + 1⟩)

/-- `Iterator::size_hint`: `(len - i, Some(len - i))`.  The claims only
concern states with `i ≤ len`, where Rust's `usize` subtraction and `Nat`
subtraction agree. -/
def DenseStringVecIter.size_hint (it : DenseStringVecIter) : Nat × Option Nat :=
  (it.vec.len - it.i, some (it.vec.len - it.i))

/-- Advancing the iterator `k` times with `next`, keeping only the state. -/
def DenseStringVecIter.stepN (it : DenseStringVecIter) : Nat → DenseStringVecIter
  | 0 => it
  | k + 1 => DenseStringVecIter.stepN (it.next).2 k

/-- `(v.get i).isSome ↔ i < v.len`, for any value of the struct: both the
start and the end computation succeed exactly on in-range positions. -/
theorem DenseStrings.get_isSome_iff (v : DenseStrings) (i : Nat) :
    (v.get i).isSome ↔ i < v.len := by
  unfold DenseStrings.get DenseStrings.get_byte_range DenseStrings.startOf
    DenseStrings.endOf DenseStrings.len
  rcases i with _ | j
  · simp [Nat.succ_le_succ, Nat.zero_le]
  · by_cases h : j + 1 ≤ v.indices.length
    · have hj : j < v.indices.length := h
      have hg : v.indices[j]? = some (v.indices.get ⟨j, hj⟩) := List.getElem?_eq_getElem hj
      simp [h, hg, Nat.succ_lt_succ_iff]
      exact hj
    · have hj : v.indices.length ≤ j := by omega
      have hg : v.indices[j]? = none := List.getElem?_eq_none hj
      simp [h, hg, Nat.succ_lt_succ_iff]
      omega

/-- `From<DenseStrings> for Vec<String>`: collect the iterator, i.e. keep
calling `next` from position `i` until it yields `None`.  Terminates because
`get` yields `None` from `len` on. -/
def DenseStrings.collectFrom (v : DenseStrings) (i : Nat) : List ByteStr :=
  match h : v.get i with
  | none => []
  | some s => s :: DenseStrings.collectFrom v (i + 1)
termination_by v.len - i
decreasing_by
  have : i < v.len := (DenseStrings.get_isSome_iff v i).mp (by simp [h])
  omega

/-- `Vec::<String>::from(v)`: the list of owned strings produced by
collecting a fresh iterator. -/
def DenseStrings.toVec (v : DenseStrings) : List ByteStr :=
  v.collectFrom 0

/-! ### Characterization of `new`

`offsetBefore S i` is the byte offset at which element `i` begins in the
concatenated buffer: the sum of the byte lengths of the elements before it.
`boundarySpec S` is the boundary array as the spec describes it: one offset
per element other than the first. -/

/-- Sum of the byte lengths of the first `i` elements of `S`. -/
def offsetBefore (S : List ByteStr) (i : Nat) : Nat :=
  ((S.map List.length).take i).sum

/-- Running offsets starting from `acc`: `[acc, acc + |s₀|, acc + |s₀| + |s₁|, …]`. -/
def offsetList (acc : Nat) : List ByteStr → List Nat
  | [] => []
  | s :: rest => acc :: offsetList (acc + s.length) rest

/-- The boundary array described by the spec: for each element except the
first, the offset at which it begins. -/
def boundarySpec : List ByteStr → List Nat
  | [] => []
  | s :: rest => offsetList s.length rest

@[simp] theorem offsetBefore_zero (S : List ByteStr) : offsetBefore S 0 = 0 := rfl

theorem offsetBefore_cons_succ (s : ByteStr) (rest : List ByteStr) (j : Nat) :
    offsetBefore (s :: rest) (j + 1) = s.length + offsetBefore rest j := by
  simp [offsetBefore]

theorem offsetBefore_succ_get (S : List ByteStr) (i : Nat) (s : ByteStr)
    (h : S[i]? = some s) :
    offsetBefore S (i + 1) = offsetBefore S i + s.length := by
  unfold offsetBefore
  rw [List.take_succ, List.getElem?_map, h]
  simp

theorem offsetBefore_mono (S : List ByteStr) {i j : Nat} (h : i ≤ j) :
    offsetBefore S i ≤ offsetBefore S j := by
  unfold offsetBefore
  conv_rhs => rw [← List.take_append_drop i ((S.map List.length).take j)]
  rw [List.take_take, Nat.min_eq_left h, List.sum_append]
  exact Nat.le_add_right _ _

theorem offsetBefore_le_flatten (S : List ByteStr) (i : Nat) :
    offsetBefore S i ≤ S.flatten.length := by
  conv_rhs => rw [← List.take_append_drop i S]
  rw [List.flatten_append, List.length_append, List.length_flatten, List.map_take]
  exact Nat.le_add_right _ _

theorem offsetBefore_length (S : List ByteStr) :
    offsetBefore S S.length = S.flatten.length := by
  unfold offsetBefore
  rw [List.take_of_length_le (by simp), List.length_flatten]

theorem offsetList_length (acc : Nat) (S : List ByteStr) :
    (offsetList acc S).length = S.length := by
  induction S generalizing acc with
  | nil => rfl
  | cons s rest ih => simp [offsetList, ih]

theorem offsetList_getElem? (acc : Nat) (S : List ByteStr) (j : Nat) (h : j < S.length) :
    (offsetList acc S)[j]? = some (acc + offsetBefore S j) := by
  induction S generalizing acc j with
  | nil => simp at h
  | cons s rest ih =>
    cases j with
    | zero => simp [offsetList]
    | succ j =>
      have hj : j < rest.length := by simpa using h
      simp [offsetList, offsetBefore_cons_succ, ih (acc + s.length) j hj, Nat.add_assoc]

theorem boundarySpec_length (S : List ByteStr) :
    (boundarySpec S).length = S.length - 1 := by
  cases S with
  | nil => rfl
  | cons s rest => simp [boundarySpec, offsetList_length]

theorem boundarySpec_getElem? (S : List ByteStr) (j : Nat) (h : j + 1 < S.length) :
    (boundarySpec S)[j]? = some (offsetBefore S (j + 1)) := by
  cases S with
  | nil => simp at h
  | cons s rest =>
    have hj : j < rest.length := by simpa using h
    simp [boundarySpec, offsetList_getElem? s.length rest j hj, offsetBefore_cons_succ]

theorem newLoop_eq (S : List ByteStr) (k : Nat) (data : ByteStr) (indices : List Nat) :
    DenseStrings.newLoop S (k + 1) data indices =
      ⟨data ++ S.flatten, indices ++ offsetList data.length S⟩ := by
  induction S generalizing k data indices with
  | nil => simp [DenseStrings.newLoop, offsetList]
  | cons s rest ih =>
    simp only [DenseStrings.newLoop, Nat.succ_ne_zero, ne_eq, not_false_eq_true, if_true,
      ih (k + 1), offsetList, List.flatten_cons]
    simp [List.append_assoc]

/-- `new S` is the buffer `S.flatten` together with the boundary array
`boundarySpec S`. -/
theorem new_eq (S : List ByteStr) :
    DenseStrings.new S = ⟨S.flatten, boundarySpec S⟩ := by
  cases S with
  | nil => rfl
  | cons s rest =>
    show DenseStrings.newLoop (s :: rest) 0 [] [] = _
    simp only [DenseStrings.newLoop, ne_eq, not_true_eq_false, if_false, reduceIte,
      newLoop_eq rest 0 ([] ++ s) [], boundarySpec, List.flatten_cons]
    simp

/-- Slicing the concatenated buffer between consecutive offsets recovers the
element. -/
theorem flatten_slice (S : List ByteStr) (i : Nat) (s : ByteStr) (h : S[i]? = some s) :
    listSlice S.flatten (offsetBefore S i) (offsetBefore S (i + 1)) = s := by
  induction S generalizing i with
  | nil => simp at h
  | cons a rest ih =>
    cases i with
    | zero =>
      have ha : a = s := by simpa using h
      subst ha
      rw [offsetBefore_cons_succ, offsetBefore_zero]
      unfold listSlice
      simp [List.take_left]
    | succ i =>
      have h2 : rest[i]? = some s := by simpa using h
      rw [offsetBefore_cons_succ, offsetBefore_cons_succ]
      unfold listSlice
      rw [List.flatten_cons, List.drop_append, Nat.add_sub_add_left]
      exact ih i h2

/-! ### Behaviour of `get`, `len` and collection on constructed arrays -/

theorem DenseStrings.get_byte_range_isSome_iff (v : DenseStrings) (i : Nat) :
    (v.get_byte_range i).isSome ↔ i < v.len := by
  rw [← DenseStrings.get_isSome_iff]
  unfold DenseStrings.get
  cases v.get_byte_range i with
  | none => simp
  | some r => cases r; simp

theorem DenseStrings.get_eq_none_iff (v : DenseStrings) (i : Nat) :
    v.get i = none ↔ v.len ≤ i := by
  have h := DenseStrings.get_isSome_iff v i
  cases hv : v.get i <;> simp [hv] at h ⊢ <;> omega

/-- Out of range, the start computation and the end computation each return
`None` on their own (for any value of the struct). -/
theorem DenseStrings.startOf_endOf_none (v : DenseStrings) (i : Nat) (h : v.len ≤ i) :
    v.startOf i = none ∧ v.endOf i = none := by
  unfold DenseStrings.len at h
  refine ⟨?_, ?_⟩
  · unfold DenseStrings.startOf
    rw [if_neg (by omega), List.get?_eq_getElem?]
    exact List.getElem?_eq_none (by omega)
  · unfold DenseStrings.endOf
    rw [if_neg (by omega)]

theorem len_new_pos (S : List ByteStr) (h : S ≠ []) :
    (DenseStrings.new S).len = S.length := by
  rw [new_eq]
  unfold DenseStrings.len
  show (boundarySpec S).length + 1 = S.length
  rw [boundarySpec_length]
  have : S.length ≠ 0 := fun h0 => h (List.length_eq_zero.mp h0)
  omega

theorem get_byte_range_new (S : List ByteStr) (i : Nat) (h : i < S.length) :
    (DenseStrings.new S).get_byte_range i =
      some (offsetBefore S i, offsetBefore S (i + 1)) := by
  rw [new_eq]
  have hstart : DenseStrings.startOf ⟨S.flatten, boundarySpec S⟩ i
      = some (offsetBefore S i) := by
    unfold DenseStrings.startOf
    rcases i with _ | j
    · simp
    · rw [if_neg (Nat.succ_ne_zero j), List.get?_eq_getElem?]
      show (boundarySpec S)[j + 1 - 1]? = _
      rw [Nat.add_sub_cancel]
      exact boundarySpec_getElem? S j h
  have hend : DenseStrings.endOf ⟨S.flatten, boundarySpec S⟩ i
      = some (offsetBefore S (i + 1)) := by
    unfold DenseStrings.endOf
    have hle : i ≤ (boundarySpec S).length := by rw [boundarySpec_length]; omega
    rw [if_pos hle, List.get?_eq_getElem?]
    by_cases hlt : i + 1 < S.length
    · rw [boundarySpec_getElem? S i hlt]
      rfl
    · have heq : i + 1 = S.length := by omega
      have hnone : (boundarySpec S)[i]? = none :=
        List.getElem?_eq_none (by rw [boundarySpec_length]; omega)
      rw [hnone]
      show some S.flatten.length = _
      rw [heq, offsetBefore_length]
  unfold DenseStrings.get_byte_range
  rw [hstart, hend]

theorem get_new (S : List ByteStr) (i : Nat) (h : i < S.length) :
    (DenseStrings.new S).get i = S[i]? := by
  obtain ⟨s, hs⟩ : ∃ s, S[i]? = some s := ⟨S.get ⟨i, h⟩, List.getElem?_eq_getElem h⟩
  unfold DenseStrings.get
  rw [get_byte_range_new S i h, hs]
  show some (listSlice (DenseStrings.new S).data _ _) = some s
  rw [new_eq]
  exact congrArg some (flatten_slice S i s hs)

/-- Every string view the lookup can return is an element of the input
sequence, or empty (the zero-input case). -/
theorem get_new_mem (S : List ByteStr) (i : Nat) (b : ByteStr)
    (h : (DenseStrings.new S).get i = some b) : b = [] ∨ b ∈ S := by
  by_cases hi : i < S.length
  · right
    rw [get_new S i hi, List.getElem?_eq_getElem hi] at h
    cases h
    exact List.getElem_mem hi
  · rcases hS : S with _ | ⟨s, rest⟩
    · left
      subst hS
      have hlen : (DenseStrings.new ([] : List ByteStr)).len = 1 := rfl
      have h0 : i = 0 := by
        have hsome : ((DenseStrings.new ([] : List ByteStr)).get i).isSome := by simp [h]
        have := (DenseStrings.get_isSome_iff _ i).mp hsome
        omega
      subst h0
      have : (DenseStrings.new ([] : List ByteStr)).get 0 = some [] := by decide
      rw [this] at h
      cases h
      rfl
    · exfalso
      have hnone : (DenseStrings.new S).get i = none := by
        rw [DenseStrings.get_eq_none_iff, len_new_pos S (by simp [hS])]
        omega
      rw [hnone] at h
      cases h

theorem get_byte_range_inBounds (S : List ByteStr) (i : Nat) (s e : Nat)
    (h : (DenseStrings.new S).get_byte_range i = some (s, e)) :
    sliceInBounds (DenseStrings.new S).data s e := by
  have hi : i < (DenseStrings.new S).len :=
    (DenseStrings.get_byte_range_isSome_iff _ i).mp (by simp [h])
  by_cases hS : S = []
  · subst hS
    have h0 : i = 0 := by
      have : (DenseStrings.new ([] : List ByteStr)).len = 1 := rfl
      omega
    subst h0
    have hr : (DenseStrings.new ([] : List ByteStr)).get_byte_range 0 = some (0, 0) := by decide
    rw [hr] at h
    cases h
    exact ⟨Nat.le_refl 0, Nat.zero_le _⟩
  · have hlen : i < S.length := by rwa [len_new_pos S hS] at hi
    rw [get_byte_range_new S i hlen] at h
    cases h
    refine ⟨offsetBefore_mono S (Nat.le_succ i), ?_⟩
    rw [new_eq]
    exact offsetBefore_le_flatten S (i + 1)

theorem collectFrom_of_none (v : DenseStrings) (i : Nat) (h : v.get i = none) :
    v.collectFrom i = [] := by
  unfold DenseStrings.collectFrom
  split
  · rfl
  · rename_i s hs
    rw [h] at hs
    cases hs

theorem collectFrom_of_some (v : DenseStrings) (i : Nat) (s : ByteStr)
    (h : v.get i = some s) :
    v.collectFrom i = s :: v.collectFrom (i + 1) := by
  conv_lhs => unfold DenseStrings.collectFrom
  split
  · rename_i hs
    rw [h] at hs
    cases hs
  · rename_i t ht
    rw [h] at ht
    cases ht
    rfl

theorem collectFrom_new (S : List ByteStr) (h : S ≠ []) :
    ∀ n i, S.length - i = n → i ≤ S.length →
      (DenseStrings.new S).collectFrom i = S.drop i := by
  intro n
  induction n with
  | zero =>
    intro i h1 h2
    have heq : i = S.length := by omega
    subst heq
    rw [collectFrom_of_none, List.drop_length]
    rw [DenseStrings.get_eq_none_iff, len_new_pos S h]
  | succ n ih =>
    intro i h1 h2
    have hi : i < S.length := by omega
    rw [collectFrom_of_some (DenseStrings.new S) i (S.get ⟨i, hi⟩)
      (by rw [get_new S i hi]; exact List.getElem?_eq_getElem hi)]
    rw [ih (i + 1) (by omega) (by omega)]
    exact (List.drop_eq_getElem_cons hi).symm

/-- Collecting a fresh iterator of `new S` gives back `S`, for non-empty `S`. -/
theorem toVec_new (S : List ByteStr) (h : S ≠ []) :
    (DenseStrings.new S).toVec = S := by
  unfold DenseStrings.toVec
  rw [collectFrom_new S h S.length 0 rfl (Nat.zero_le _)]
  rfl

theorem stepN_state (v : DenseStrings) (i k : Nat) :
    DenseStringVecIter.stepN ⟨v, i⟩ k = ⟨v, i + k⟩ := by
  induction k generalizing i with
  | zero => rfl
  | succ k ih =>
    show DenseStringVecIter.stepN ⟨v, i + 1⟩ k = _
    rw [ih (i + 1)]
    congr 1
    omega

/-! ### UTF-8 validity and remaining helpers -/

/-- A byte `0x80..0xBF`, i.e. a UTF-8 continuation byte. -/
def isCont (b : Nat) : Bool := 0x80 ≤ b && b ≤ 0xBF

/-- Validity of a byte sequence as complete UTF-8 (RFC 3629: shortest forms
only, no surrogates, up to `U+10FFFF`).  The inputs of `new` satisfy this by
the Rust `str` type; the library itself never re-validates. -/
def utf8Valid : List Nat → Bool
  | [] => true
  | b :: l =>
    if b ≤ 0x7F then utf8Valid l
    else if 0xC2 ≤ b && b ≤ 0xDF then
      match l with
      | c :: l2 => isCont c && utf8Valid l2
      | [] => false
    else if b = 0xE0 then
      match l with
      | c :: d :: l2 => (0xA0 ≤ c && c ≤ 0xBF) && isCont d && utf8Valid l2
      | _ => false
    else if (0xE1 ≤ b && b ≤ 0xEC) || b = 0xEE || b = 0xEF then
      match l with
      | c :: d :: l2 => isCont c && isCont d && utf8Valid l2
      | _ => false
    else if b = 0xED then
      match l with
      | c :: d :: l2 => (0x80 ≤ c && c ≤ 0x9F) && isCont d && utf8Valid l2
      | _ => false
    else if b = 0xF0 then
      match l with
      | c :: d :: e :: l2 => (0x90 ≤ c && c ≤ 0xBF) && isCont d && isCont e && utf8Valid l2
      | _ => false
    else if 0xF1 ≤ b && b ≤ 0xF3 then
      match l with
      | c :: d :: e :: l2 => isCont c && isCont d && isCont e && utf8Valid l2
      | _ => false
    else if b = 0xF4 then
      match l with
      | c :: d :: e :: l2 => (0x80 ≤ c && c ≤ 0x8F) && isCont d && isCont e && utf8Valid l2
      | _ => false
    else false

theorem offsetList_congr (acc : Nat) (S T : List ByteStr)
    (h : S.map List.length = T.map List.length) :
    offsetList acc S = offsetList acc T := by
  induction S generalizing acc T with
  | nil =>
    cases T with
    | nil => rfl
    | cons t ts => simp at h
  | cons s ss ih =>
    cases T with
    | nil => simp at h
    | cons t ts =>
      simp only [List.map_cons, List.cons.injEq] at h
      obtain ⟨h1, h2⟩ := h
      simp [offsetList, h1, ih _ _ h2]

theorem boundarySpec_congr (S T : List ByteStr)
    (h : S.map List.length = T.map List.length) :
    boundarySpec S = boundarySpec T := by
  cases S with
  | nil =>
    cases T with
    | nil => rfl
    | cons t ts => simp at h
  | cons s ss =>
    cases T with
    | nil => simp at h
    | cons t ts =>
      simp only [List.map_cons, List.cons.injEq] at h
      obtain ⟨h1, h2⟩ := h
      simp only [boundarySpec, h1]
      exact offsetList_congr _ _ _ h2

/-- `new []` collects to the single empty string. -/
theorem toVec_new_nil :
    DenseStrings.toVec (DenseStrings.new ([] : List ByteStr)) = [[]] := by
  unfold DenseStrings.toVec
  rw [collectFrom_of_some _ 0 [] (by decide), collectFrom_of_none _ 1 (by decide)]

/-! ### The claims -/

/-- C1: as stated the claim fails at the empty input sequence: `new []` has
`len = 1`, so position `0` is valid, but `get 0` returns the empty string
while the input has no 0-th element. -/
theorem claim_C1_cex :
    ¬ (∀ i, i < (DenseStrings.new ([] : List ByteStr)).len →
        (DenseStrings.new ([] : List ByteStr)).get i = ([] : List ByteStr)[i]?) := by
  intro h
  exact absurd (h 0 (by decide)) (by decide)

/-- C1 (amended to non-empty input): for every array constructed by `new`
from a non-empty sequence `S`, `get i` returns the `i`-th string of `S`
byte-for-byte for every `i < len()`, and `get i` returns `None` for every
`i ≥ len()`. -/
theorem claim_C1 (S : List ByteStr) (h : S ≠ []) (i : Nat) :
    (i < (DenseStrings.new S).len → (DenseStrings.new S).get i = S[i]?) ∧
    ((DenseStrings.new S).len ≤ i → (DenseStrings.new S).get i = none) := by
  constructor
  · intro hi
    exact get_new S i (by rwa [len_new_pos S h] at hi)
  · intro hi
    exact (DenseStrings.get_eq_none_iff _ i).mpr hi

theorem claim_C1_witness :
    ([[97], [98, 99]] : List ByteStr) ≠ [] ∧
    (DenseStrings.new [[97], [98, 99]]).get 1 = ([[97], [98, 99]] : List ByteStr)[1]? ∧
    (DenseStrings.new [[97], [98, 99]]).get 2 = none :=
  ⟨by decide,
    (claim_C1 [[97], [98, 99]] (by decide) 1).1 (by decide),
    (claim_C1 [[97], [98, 99]] (by decide) 2).2 (by decide)⟩

/-- C2: as stated (for any sequence, "including the empty sequence") the
claim fails at `S = []`: converting `new []` back yields `[""]`, not `[]`. -/
theorem claim_C2_cex :
    DenseStrings.toVec (DenseStrings.new ([] : List ByteStr)) ≠ ([] : List ByteStr) := by
  rw [toVec_new_nil]
  decide

/-- C2 (amended to non-empty input): for any non-empty ordered sequence `S`
of strings, converting `new S` back to a plain sequence of owned strings
yields a sequence equal to `S` element-for-element, in the same order. -/
theorem claim_C2 (S : List ByteStr) (h : S ≠ []) :
    (DenseStrings.new S).toVec = S :=
  toVec_new S h

theorem claim_C2_witness :
    ([[97], [], [98]] : List ByteStr) ≠ [] ∧
    (DenseStrings.new [[97], [], [98]]).toVec = [[97], [], [98]] :=
  ⟨by decide, claim_C2 [[97], [], [98]] (by decide)⟩

/-- C3: as stated the claim is false: two arrays built from well-formed
inputs can have equal `full_str` buffers and equal `len` yet different
boundary arrays, and `get` then disagrees; splitting the buffer `[0, 1, 2]`
as `["\x00", "\x01\x02"]` versus `["\x00\x01", "\x02"]` is a counterexample. -/
theorem claim_C3_cex :
    (DenseStrings.new [[0], [1, 2]]).full_str = (DenseStrings.new [[0, 1], [2]]).full_str ∧
    (DenseStrings.new [[0], [1, 2]]).len = (DenseStrings.new [[0, 1], [2]]).len ∧
    (DenseStrings.new [[0], [1, 2]]).indices ≠ (DenseStrings.new [[0, 1], [2]]).indices ∧
    (DenseStrings.new [[0], [1, 2]]).get 1 ≠ (DenseStrings.new [[0, 1], [2]]).get 1 := by
  decide

/-- C3 (amended): for two arrays built by `new` from input sequences whose
corresponding elements have equal byte lengths, the boundary arrays are
equal; and if additionally the `full_str` buffers are equal, `get` agrees at
every position. -/
theorem claim_C3 (S T : List ByteStr) (h : S.map List.length = T.map List.length) :
    (DenseStrings.new S).indices = (DenseStrings.new T).indices ∧
    ((DenseStrings.new S).full_str = (DenseStrings.new T).full_str →
      ∀ i, (DenseStrings.new S).get i = (DenseStrings.new T).get i) := by
  have hb : boundarySpec S = boundarySpec T := boundarySpec_congr S T h
  constructor
  · rw [new_eq, new_eq]
    exact hb
  · intro hfs i
    have hd : S.flatten = T.flatten := by
      rw [new_eq, new_eq] at hfs
      exact hfs
    have : DenseStrings.new S = DenseStrings.new T := by
      rw [new_eq, new_eq, hd, hb]
    rw [this]

theorem claim_C3_witness :
    ([[5], [6]] : List ByteStr).map List.length = ([[7], [8]] : List ByteStr).map List.length ∧
    (DenseStrings.new [[5], [6]]).indices = (DenseStrings.new [[7], [8]]).indices :=
  ⟨by decide, (claim_C3 [[5], [6]] [[7], [8]] (by decide)).1⟩

/-- C4: for every input `S`, the data buffer is the separator-free
concatenation of the elements, `full_str` returns exactly it, the boundary
array has one entry per element after the first, and entry `i` is the sum of
the byte lengths of elements `0..i`. -/
theorem claim_C4 (S : List ByteStr) :
    (DenseStrings.new S).data = S.flatten ∧
    (DenseStrings.new S).full_str = S.flatten ∧
    (DenseStrings.new S).indices.length = S.length - 1 ∧
    (∀ i, i + 1 < S.length →
      (DenseStrings.new S).indices[i]? = some (((S.take (i + 1)).map List.length).sum)) := by
  refine ⟨?_, ?_, ?_, ?_⟩
  · rw [new_eq]
  · rw [new_eq]
    rfl
  · rw [new_eq]
    exact boundarySpec_length S
  · intro i hi
    rw [new_eq]
    show (boundarySpec S)[i]? = _
    rw [boundarySpec_getElem? S i hi, List.map_take]
    rfl

theorem claim_C4_witness :
    1 + 1 < ([[1], [2, 3], [4]] : List ByteStr).length ∧
    (DenseStrings.new [[1], [2, 3], [4]]).indices[1]? =
      some ((([[1], [2, 3], [4]] : List ByteStr).take (1 + 1)).map List.length).sum :=
  ⟨by decide, (claim_C4 [[1], [2, 3], [4]]).2.2.2 1 (by decide)⟩

/-- C5: `len` of an array built from a non-empty sequence of `n` elements is
`n`; and for every array whatsoever `len = indices.length + 1 ≥ 1`, in
particular for the array built from zero input strings. -/
theorem claim_C5 (S : List ByteStr) (h : S ≠ []) (v : DenseStrings) :
    (DenseStrings.new S).len = S.length ∧
    v.len = v.indices.length + 1 ∧
    1 ≤ v.len ∧
    1 ≤ (DenseStrings.new ([] : List ByteStr)).len := by
  refine ⟨len_new_pos S h, rfl, ?_, by decide⟩
  unfold DenseStrings.len
  omega

theorem claim_C5_witness :
    ([[9]] : List ByteStr) ≠ [] ∧
    (DenseStrings.new [[9]]).len = ([[9]] : List ByteStr).length :=
  ⟨by decide, (claim_C5 [[9]] (by decide) (DenseStrings.new [[9]])).1⟩

/-- C6: a fresh iterator yields, at each step `k`, exactly `get k` (a present
item for `k < len`, `None` from `len` on), and its remaining-count hint is
exactly `len - k`, decreasing by 1 per step and reaching 0 exactly at
exhaustion. -/
theorem claim_C6 (v : DenseStrings) (k : Nat) :
    (k < v.len → (v.iter.stepN k).next.1 = v.get k ∧ (v.get k).isSome) ∧
    (v.len ≤ k → (v.iter.stepN k).next.1 = none) ∧
    (k ≤ v.len →
      (v.iter.stepN k).size_hint = (v.len - k, some (v.len - k)) ∧
      ((v.iter.stepN k).size_hint.1 = 0 ↔ k = v.len)) ∧
    (k < v.len →
      (v.iter.stepN (k + 1)).size_hint.1 + 1 = (v.iter.stepN k).size_hint.1) := by
  have hstep : ∀ m, v.iter.stepN m = ⟨v, m⟩ := by
    intro m
    have h0 := stepN_state v 0 m
    simpa [DenseStrings.iter] using h0
  refine ⟨?_, ?_, ?_, ?_⟩
  · intro hk
    refine ⟨?_, (DenseStrings.get_isSome_iff v k).mpr hk⟩
    rw [hstep k]
    rfl
  · intro hk
    rw [hstep k]
    exact (DenseStrings.get_eq_none_iff v k).mpr hk
  · intro hk
    rw [hstep k]
    refine ⟨rfl, ?_⟩
    show v.len - k = 0 ↔ k = v.len
    omega
  · intro hk
    rw [hstep k, hstep (k + 1)]
    show (v.len - (k + 1)) + 1 = v.len - k
    omega

theorem claim_C6_witness :
    1 < (DenseStrings.new [[1], [2]]).len ∧
    (((DenseStrings.new [[1], [2]]).iter.stepN 1).next.1 =
        (DenseStrings.new [[1], [2]]).get 1 ∧
      ((DenseStrings.new [[1], [2]]).get 1).isSome) :=
  ⟨by decide, (claim_C6 (DenseStrings.new [[1], [2]]) 1).1 (by decide)⟩

/-- C7: on every array built by `new`, out-of-range positions are detected
independently by the start and the end computation (each returns `None`);
any byte range produced satisfies the slice precondition, so indexing the
buffer cannot fault; and every returned view is byte-for-byte an input
element (or empty, in the zero-input case), hence a valid, complete,
boundary-aligned UTF-8 slice whenever the inputs are valid UTF-8. -/
theorem claim_C7 (S : List ByteStr) (i : Nat) :
    ((DenseStrings.new S).len ≤ i →
      (DenseStrings.new S).startOf i = none ∧ (DenseStrings.new S).endOf i = none) ∧
    (∀ s e, (DenseStrings.new S).get_byte_range i = some (s, e) →
      sliceInBounds (DenseStrings.new S).data s e) ∧
    (∀ b, (DenseStrings.new S).get i = some b →
      (b = [] ∨ b ∈ S) ∧ ((∀ s ∈ S, utf8Valid s = true) → utf8Valid b = true)) := by
  refine ⟨DenseStrings.startOf_endOf_none _ i, ?_, ?_⟩
  · intro s e h
    exact get_byte_range_inBounds S i s e h
  · intro b hb
    have hmem := get_new_mem S i b hb
    refine ⟨hmem, ?_⟩
    intro hall
    rcases hmem with h0 | hmemS
    · subst h0
      rfl
    · exact hall b hmemS

theorem claim_C7_witness :
    (DenseStrings.new [[97]]).len ≤ 5 ∧
    ((DenseStrings.new [[97]]).startOf 5 = none ∧
      (DenseStrings.new [[97]]).endOf 5 = none) :=
  ⟨by decide, (claim_C7 [[97]] 5).1 (by decide)⟩

/-- C8: the panicking indexed access panics exactly on `i ≥ len` (`none`
models the panic of `unwrap`), and for `i < len` it returns the very same
view as `get i`, never a default. -/
theorem claim_C8 (S : List ByteStr) (i : Nat) :
    ((DenseStrings.new S).index i = none ↔ (DenseStrings.new S).len ≤ i) ∧
    (i < (DenseStrings.new S).len →
      (DenseStrings.new S).index i = (DenseStrings.new S).get i ∧
      ((DenseStrings.new S).index i).isSome) := by
  refine ⟨DenseStrings.get_eq_none_iff _ i, ?_⟩
  intro hi
  exact ⟨rfl, (DenseStrings.get_isSome_iff _ i).mpr hi⟩

theorem claim_C8_witness :
    1 < (DenseStrings.new [[3], [4]]).len ∧
    ((DenseStrings.new [[3], [4]]).index 1 = (DenseStrings.new [[3], [4]]).get 1 ∧
      ((DenseStrings.new [[3], [4]]).index 1).isSome) :=
  ⟨by decide, (claim_C8 [[3], [4]] 1).2 (by decide)⟩

/-- C9: as stated the claim fails on the zero-element edge case: `new []`
and `new [""]` are built from sequences of different element counts (0 and
1) with coinciding concatenations, yet they compare equal. -/
theorem claim_C9_cex :
    ([] : List ByteStr).length ≠ ([[]] : List ByteStr).length ∧
    (DenseStrings.new ([] : List ByteStr)).full_str = (DenseStrings.new [[]]).full_str ∧
    (DenseStrings.new ([] : List ByteStr)).beq (DenseStrings.new [[]]) = true := by
  decide

/-- C9 (amended to non-empty sequences in the last part): equality is
exactly byte-identical full buffers plus identical `len`; an array equals
the array built from the same input; equal arrays feed identical data to the
hasher (buffer content and count only); and two arrays built from non-empty
sequences with different element counts are never equal. -/
theorem claim_C9 (a b : DenseStrings) (S T : List ByteStr) (hS : S ≠ []) (hT : T ≠ [])
    (hne : S.length ≠ T.length) :
    (a.beq b = true ↔ (a.full_str = b.full_str ∧ a.len = b.len)) ∧
    (DenseStrings.new S).beq (DenseStrings.new S) = true ∧
    (a.beq b = true → a.hashFeed = b.hashFeed) ∧
    (DenseStrings.new S).beq (DenseStrings.new T) = false := by
  have hiff : ∀ x y : DenseStrings,
      (x.beq y = true ↔ (x.full_str = y.full_str ∧ x.len = y.len)) := by
    intro x y
    simp [DenseStrings.beq]
  refine ⟨hiff a b, (hiff _ _).mpr ⟨rfl, rfl⟩, ?_, ?_⟩
  · intro h
    obtain ⟨h1, h2⟩ := (hiff a b).mp h
    unfold DenseStrings.hashFeed
    rw [h1, h2]
  · cases hbe : (DenseStrings.new S).beq (DenseStrings.new T) with
    | false => rfl
    | true =>
      obtain ⟨h1, h2⟩ := (hiff _ _).mp hbe
      rw [len_new_pos S hS, len_new_pos T hT] at h2
      exact absurd h2 hne

theorem claim_C9_witness :
    ([[1]] : List ByteStr) ≠ [] ∧ ([[1], [2]] : List ByteStr) ≠ [] ∧
    ([[1]] : List ByteStr).length ≠ ([[1], [2]] : List ByteStr).length ∧
    (DenseStrings.new [[1]]).beq (DenseStrings.new [[1], [2]]) = false :=
  ⟨by decide, by decide, by decide,
    (claim_C9 (DenseStrings.new [[1]]) (DenseStrings.new [[1]]) [[1]] [[1], [2]]
      (by decide) (by decide) (by decide)).2.2.2⟩

/-- C10: the array built from zero input strings behaves as one holding
exactly one empty string: `len = 1`, `get 0` is the empty view, `get 1` is
`None`, and conversion to owned strings yields `[""]`. -/
theorem claim_C10 :
    (DenseStrings.new ([] : List ByteStr)).len = 1 ∧
    (DenseStrings.new ([] : List ByteStr)).get 0 = some [] ∧
    (DenseStrings.new ([] : List ByteStr)).get 1 = none ∧
    DenseStrings.toVec (DenseStrings.new ([] : List ByteStr)) = [[]] :=
  ⟨by decide, by decide, by decide, toVec_new_nil⟩
